import Mathlib

/-
Verification of the tag-reconciliation engine of the pdf-detection
repository.  Python strings are modelled as `List Char` (`Str` below);
the ASCII-oriented regular expressions of the sources are modelled by
explicit character-class checks; Python dictionaries of counters are
modelled as total functions defaulting to zero (mirroring
`defaultdict(int)`); Python sets are modelled as `Finset`.
-/

namespace PdfDetection

/-- Python strings, modelled as lists of characters. -/
abbrev Str := List Char

/-- Coerce a Lean string literal to the `Str` model. -/
def str (s : String) : Str := s.data

/-- Python string comparison: lexicographic by code point. -/
def strLe : Str → Str → Bool
  | [], _ => true
  | _ :: _, [] => false
  | a :: s, b :: t => if a < b then true else if b < a then false else strLe s t

/-- The propositional form of `strLe`, used as the sorting relation. -/
def strLeP (s t : Str) : Prop := strLe s t = true

instance : DecidableRel strLeP := fun s t => Bool.decEq (strLe s t) true

theorem strLe_total : ∀ s t : Str, strLe s t = true ∨ strLe t s = true := by
  intro s
  induction s with
  | nil => intro t; left; rfl
  | cons a s ih =>
    intro t
    cases t with
    | nil => right; rfl
    | cons b t =>
      rcases lt_trichotomy a b with hab | hab | hab
      · left; simp [strLe, hab]
      · subst hab
        rcases ih t with h | h
        · left; simp [strLe, h]
        · right; simp [strLe, h]
      · right; simp [strLe, hab]

theorem strLe_trans : ∀ s t u : Str,
    strLe s t = true → strLe t u = true → strLe s u = true := by
  intro s
  induction s with
  | nil => intro t u _ _; rfl
  | cons a s ih =>
    intro t u h1 h2
    cases t with
    | nil => simp [strLe] at h1
    | cons b t =>
      cases u with
      | nil => simp [strLe] at h2
      | cons c u =>
        rcases lt_trichotomy a b with hab | hab | hab
        · rcases lt_trichotomy b c with hbc | hbc | hbc
          · simp [strLe, lt_trans hab hbc]
          · subst hbc; simp [strLe, hab]
          · simp [strLe, asymm hbc, hbc] at h2
        · subst hab
          simp [strLe, lt_irrefl] at h1
          rcases lt_trichotomy a c with hac | hac | hac
          · simp [strLe, hac]
          · subst hac
            simp [strLe, lt_irrefl] at h2 ⊢
            exact ih t u h1 h2
          · simp [strLe, asymm hac, hac] at h2
        · simp [strLe, hab, asymm hab] at h1

theorem strLe_antisymm : ∀ s t : Str,
    strLe s t = true → strLe t s = true → s = t := by
  intro s
  induction s with
  | nil =>
    intro t _ h2
    cases t with
    | nil => rfl
    | cons b t => simp [strLe] at h2
  | cons a s ih =>
    intro t h1 h2
    cases t with
    | nil => simp [strLe] at h1
    | cons b t =>
      rcases lt_trichotomy a b with hab | hab | hab
      · simp [strLe, hab, asymm hab] at h2
      · subst hab
        simp [strLe, lt_irrefl] at h1 h2
        rw [ih t h1 h2]
      · simp [strLe, hab, asymm hab] at h1

instance : IsTotal Str strLeP := ⟨strLe_total⟩

instance : IsTrans Str strLeP := ⟨strLe_trans⟩

instance : IsAntisymm Str strLeP := ⟨strLe_antisymm⟩

/-- `sorted(set(l))` from Python: deduplicate, then sort ascending. -/
def sortedStrs (l : List Str) : List Str := List.insertionSort strLeP l.dedup

/-- Python `str.upper()` restricted to its ASCII action (the only part the
sources rely on, since all matched letters are `[A-Za-z]`). -/
def upperStr (s : Str) : Str := s.map Char.toUpper

/-- Python `str.lower()`, ASCII action. -/
def lowerStr (s : Str) : Str := s.map Char.toLower

/-- Python `str.strip()`: remove whitespace from both ends. -/
def pyStrip (s : Str) : Str :=
  ((s.dropWhile Char.isWhitespace).reverse.dropWhile Char.isWhitespace).reverse

/-- Python `str.splitlines()`, worker: `cur` is the current line reversed. -/
def splitlinesGo (cur : Str) : Str → List Str
  | [] => if cur = [] then [] else [cur.reverse]
  | '\n' :: rest => cur.reverse :: splitlinesGo [] rest
  | '\r' :: '\n' :: rest => cur.reverse :: splitlinesGo [] rest
  | '\r' :: rest => cur.reverse :: splitlinesGo [] rest
  | c :: rest => splitlinesGo (c :: cur) rest

/-- Python `str.splitlines()`. -/
def splitlines (s : Str) : List Str := splitlinesGo [] s

/-- Is the first string a prefix of the second? -/
def isPrefixOfStr : Str → Str → Bool
  | [], _ => true
  | _ :: _, [] => false
  | a :: p, b :: s => a = b && isPrefixOfStr p s

/-- Python substring containment `pat in s`. -/
def containsSub (pat : Str) : Str → Bool
  | [] => decide (pat = [])
  | b :: s => isPrefixOfStr pat (b :: s) || containsSub pat s

/-- `mark.replace("-", " ")` from the search-variant builders. -/
def hyphenToSpace (m : Str) : Str := m.map fun c => if c = '-' then ' ' else c

/-- `mark.replace("-", "")` from the search-variant builders. -/
def dropHyphens (m : Str) : Str := m.filter fun c => c ≠ '-'

/-! ### `src/app.py` -/

/-- The suffix test `-\d+` of `MARK_REGEX`: a hyphen immediately followed
by at least one digit. -/
def hyphenDigitNext : Str → Bool
  | '-' :: d :: _ => d.isDigit
  | _ => false

/-- One backtracking step of `re.match(r'^[A-Z]{1,4}-\d+', s, re.IGNORECASE)`
(`MARK_REGEX`, `src/app.py` line 13): the first `k` characters are letters,
then a hyphen, then at least one digit. -/
def lettersThenHyphenDigit (s : Str) (k : Nat) : Bool :=
  decide ((s.take k).length = k) && (s.take k).all Char.isAlpha &&
    hyphenDigitNext (s.drop k)

/-- `MARK_REGEX.match(token)` succeeds (`src/app.py` line 13): the greedy
quantifier `{1,4}` with backtracking means some prefix length `k ∈ [1,4]`
works. -/
def markRegexMatch (s : Str) : Bool :=
  [1, 2, 3, 4].any (lettersThenHyphenDigit s)

/-- `mark_type` from `src/app.py` (lines 108-117): leading letters (at most
4, case-insensitive) uppercased; otherwise the text before the first
hyphen, uppercased; otherwise the whole string uppercased. -/
def markTypeApp (mark : Str) : Str :=
  let g := (mark.takeWhile Char.isAlpha).take 4
  if g ≠ [] then upperStr g
  else if mark.contains '-' then upperStr (mark.takeWhile fun c => c ≠ '-')
  else upperStr mark

/-- RGB colors with components in `[0, 1]`, modelled exactly as rationals. -/
abbrev Color := ℚ × ℚ × ℚ

/-- The 11-entry palette of `build_type_color_map` in `src/app.py`. -/
def palette : List Color :=
  [(1, 0, 0), (0, 0, 1), (0, 0.6, 0), (1, 0.5, 0), (0.6, 0, 0.6),
   (0, 0.7, 0.7), (0.7, 0.7, 0), (0.5, 0.3, 0.1), (0, 0, 0.5),
   (0, 0.5, 0.3), (0.5, 0.5, 0.5)]

/-- `build_type_color_map` from `src/app.py` (lines 141-161):
`for idx, t in enumerate(sorted(set(types))): map[t] = palette[idx % len(palette)]`. -/
def build_type_color_map (types : List Str) : List (Str × Color) :=
  (sortedStrs types).enum.map fun it =>
    (it.2, palette.getD (it.1 % palette.length) (0, 0, 0))

/-! ### `src/app1.py` -/

/-- The word searched for by the plan-label detector. -/
def planWord : Str := ['P', 'L', 'A', 'N']

/-- The preferred keyword of the plan-label detector. -/
def mechWord : Str := ['M', 'E', 'C', 'H', 'A', 'N', 'I', 'C', 'A', 'L']

/-- `get_plan_label` from `src/app1.py` (also `get_plan_type` in
`src/mechanical_processor1.py`, which is textually identical): keep the
stripped lines containing "PLAN" (case-insensitively), return the first
containing "MECHANICAL", else the first kept line, else none. -/
def get_plan_label (text : Str) : Option Str :=
  let lines :=
    ((splitlines text).filter fun l => containsSub planWord (upperStr l)).map pyStrip
  match lines.find? (fun l => containsSub mechWord (upperStr l)) with
  | some l => some l
  | none => lines.head?

/-- `mark_type` from `src/app1.py` (line 90):
`m = re.match(r"^[A-Z]+", mark); return m.group(0) if m else mark`. -/
def mark_type1 (mark : Str) : Str :=
  let g := mark.takeWhile Char.isUpper
  if g ≠ [] then g else mark

/-- A bounding box returned by the page's literal search capability
(`page.search_for` of PyMuPDF). -/
structure Rect where
  x0 : Int
  y0 : Int
  x1 : Int
  y1 : Int
deriving DecidableEq

/-- A page: its extractable text and its literal-search capability. -/
structure Page where
  text : Str
  searchFor : Str → List Rect

/-- The search-variant set `{mark, mark.replace("-", " "),
mark.replace("-", "")}` from `highlight_pdf` in `src/app1.py` (also
`src/app.py` lines 192-196), as the list of its constructors; the Python
set's deduplication is harmless here because the rect lists produced from
the variants are themselves deduplicated before use. -/
def variants1 (m : Str) : List Str := [m, hyphenToSpace m, dropHyphens m]

/-- Number of deduplicated boxes for a mark on a page:
`rects = []; for v in variants: rects.extend(page.search_for(v));
rects = list({r for r in rects}); len(rects)`. -/
def pageRectCount (pg : Page) (m : Str) : Nat :=
  ((variants1 m).flatMap pg.searchFor).toFinset.card

/-- The running state of `highlight_pdf` in `src/app1.py`: the `found_tags`
set and the two `defaultdict(int)` counter tables (total functions
defaulting to 0). -/
structure Report where
  found : Finset Str
  planMark : Str → Str → Nat
  planType : Str → Str → Nat

/-- Initial state: empty found set, all counters zero. -/
def emptyReport : Report := ⟨∅, fun _ _ => 0, fun _ _ => 0⟩

/-- `table[p][m] += n` on a `defaultdict`-style total counter table. -/
def bump (f : Str → Str → Nat) (p m : Str) (n : Nat) : Str → Str → Nat :=
  fun p' m' => if p' = p ∧ m' = m then f p' m' + n else f p' m'

/-- The body of the inner loop of `highlight_pdf` in `src/app1.py`
(lines 129-152): if no rect survives deduplication, skip; otherwise add
the mark to `found_tags` and, only when the page has a plan label,
increment both counter tables by the deduplicated rect count. -/
def processMark (pg : Page) (plan : Option Str) (m : Str) (r : Report) : Report :=
  let n := pageRectCount pg m
  if n = 0 then r
  else
    let r1 : Report := { r with found := insert m r.found }
    match plan with
    | some p =>
        { r1 with
          planMark := bump r1.planMark p m n
          planType := bump r1.planType p (mark_type1 m) n }
    | none => r1

/-- One page of the outer loop of `highlight_pdf` in `src/app1.py`:
compute the plan label once, then fold the marks. -/
def processPage (marks : List Str) (r : Report) (pg : Page) : Report :=
  marks.foldl (fun acc m => processMark pg (get_plan_label pg.text) m acc) r

/-- `highlight_pdf` from `src/app1.py` (lines 119-164), restricted to its
observable reconciliation result (annotation drawing and PDF serialization
are I/O side effects carrying no further information). -/
def highlight_pdf (doc : List Page) (marks : List Str) : Report :=
  doc.foldl (processPage marks) emptyReport

/-- `missing_tags = sorted(set(all_tags) - found_tags)` from `src/app1.py`
(line 219), as the set difference (the final `sorted` only fixes the
presentation order of the set). -/
def missing_tags (doc : List Page) (allTags : List Str) : Finset Str :=
  allTags.toFinset \ (highlight_pdf doc allTags).found

/-! ### `src/app3.py` -/

/-- The per-sampled-page readability test of `ensure_searchable_pdf` in
`src/app3.py` (lines 33-36): `text = page.extract_text()` (possibly
`None`), then `if text and len(text.strip()) > 50`. -/
def pageReadable (t : Option Str) : Bool :=
  match t with
  | none => false
  | some s => decide (50 < (pyStrip s).length)

/-- `ensure_searchable_pdf` from `src/app3.py` (lines 27-71).  A document
is modelled by the extractable texts of its pages; `ocr` is the external
OCR collaborator producing the rasterize-and-OCR rebuild of the whole
document, invoked only when every one of the first three pages fails the
readability test. -/
def ensure_searchable_pdf (ocr : List (Option Str) → List (Option Str))
    (doc : List (Option Str)) : List (Option Str) :=
  if (doc.take 3).any pageReadable then doc else ocr doc

/-! ### `src/app5.py` and `src/app6.py`: canonicalizing extraction -/

/-- The separator characters of the app6 pattern
`([A-Z]{1,4})(\s*[-‐‑_~]\s*|\s+)(\d+)` (line 47 of `src/app6.py`). -/
def sepChars6 : List Char := ['-', '‐', '‑', '_', '~']

/-- The separator characters of `MARK_REGEX_BROAD` in `src/app5.py`
(line 48): `([A-Z]{1,4})\s*[-_]\s*(\d+)`. -/
def sepChars5 : List Char := ['-', '_']

/-- The app6 extraction pattern applied to one whole raw token, returning
the canonical tag `f"{g1.upper()}-{g3}"` built at line 84 of
`src/app6.py`: 1-4 letters, then either optional whitespace around one
separator character or bare whitespace, then digits to the end. -/
def canonApp6 (s : Str) : Option Str :=
  if 1 ≤ (s.takeWhile Char.isAlpha).length ∧ (s.takeWhile Char.isAlpha).length ≤ 4 then
    match (s.drop (s.takeWhile Char.isAlpha).length).dropWhile Char.isWhitespace with
    | [] => none
    | c :: rest2 =>
      if sepChars6.contains c then
        if rest2.dropWhile Char.isWhitespace ≠ [] ∧
            (rest2.dropWhile Char.isWhitespace).all Char.isDigit then
          some (upperStr (s.takeWhile Char.isAlpha) ++ '-' :: rest2.dropWhile Char.isWhitespace)
        else none
      else if (s.drop (s.takeWhile Char.isAlpha).length).takeWhile Char.isWhitespace ≠ [] ∧
          (c :: rest2).all Char.isDigit then
        some (upperStr (s.takeWhile Char.isAlpha) ++ '-' :: (c :: rest2))
      else none
  else none

/-- `MARK_REGEX_BROAD` of `src/app5.py` applied to one whole raw token,
returning the canonical tag `f"{g1.upper()}-{g2}"` (line 68): like the
app6 pattern but the separator must be a hyphen or underscore (bare
whitespace is not accepted as a separator). -/
def canonApp5 (s : Str) : Option Str :=
  if 1 ≤ (s.takeWhile Char.isAlpha).length ∧ (s.takeWhile Char.isAlpha).length ≤ 4 then
    match (s.drop (s.takeWhile Char.isAlpha).length).dropWhile Char.isWhitespace with
    | [] => none
    | c :: rest2 =>
      if sepChars5.contains c then
        if rest2.dropWhile Char.isWhitespace ≠ [] ∧
            (rest2.dropWhile Char.isWhitespace).all Char.isDigit then
          some (upperStr (s.takeWhile Char.isAlpha) ++ '-' :: rest2.dropWhile Char.isWhitespace)
        else none
      else none
  else none

/-! ### `src/mechanical_processor.py` -/

/-- `mark_type` from `src/mechanical_processor.py` (lines 31-43):
empty-string guard, the leading run of uppercase letters, the text before
the first hyphen, or the whole string (no uppercasing here). -/
def mark_type_mp (mark : Str) : Str :=
  if mark = [] then []
  else
    let g := mark.takeWhile Char.isUpper
    if g ≠ [] then g
    else if mark.contains '-' then mark.takeWhile (fun c => c ≠ '-')
    else mark

/-! ### `src/mechanical_processor1.py` -/

/-- `mark_type` from `src/mechanical_processor1.py` (lines 33-37). -/
def mark_type_mp1 (mark : Str) : Str :=
  if mark = [] then []
  else
    let g := mark.takeWhile Char.isUpper
    if g ≠ [] then g else mark

/-- `build_search_variants` from `src/mechanical_processor1.py`
(lines 40-46): the set
`{mark, mark.replace("-", " "), mark.replace("-", ""), mark.lower()}`. -/
def build_search_variants (m : Str) : Finset Str :=
  {m, hyphenToSpace m, dropHyphens m, lowerStr m}

/-- The constructors of `build_search_variants` as a list (its iteration
order and duplicates are irrelevant: the rect lists produced from the
variants are deduplicated before use). -/
def variantsMp1 (m : Str) : List Str := [m, hyphenToSpace m, dropHyphens m, lowerStr m]

/-- Deduplicated box count per (page, tag) in `highlight_pdf_and_count` of
`src/mechanical_processor1.py`: the variant set is iterated, the returned
rect lists are concatenated and deduplicated (`rects = list({...})`). -/
def pageRectCountMp1 (pg : Page) (m : Str) : Nat :=
  ((variantsMp1 m).flatMap pg.searchFor).toFinset.card

/-- The two counter tables built by `highlight_pdf_and_count` in
`src/mechanical_processor1.py`. -/
structure Mp1Counts where
  planTag : Str → Str → Nat
  planType : Str → Str → Nat

/-- Inner loop body of `highlight_pdf_and_count` in
`src/mechanical_processor1.py` (lines 170-190): no `found_tags` set is
kept here; counters are bumped only on pages with a plan label. -/
def mp1ProcessTag (pg : Page) (plan : Option Str) (tag : Str) (r : Mp1Counts) : Mp1Counts :=
  let n := pageRectCountMp1 pg tag
  if n = 0 then r
  else
    match plan with
    | some p => ⟨bump r.planTag p tag n, bump r.planType p (mark_type_mp1 tag) n⟩
    | none => r

/-- `highlight_pdf_and_count` from `src/mechanical_processor1.py`
(lines 146-196), restricted to the counter tables it accumulates. -/
def highlight_pdf_and_count (doc : List Page) (tags : List Str) : Mp1Counts :=
  doc.foldl
    (fun r pg => tags.foldl (fun acc t => mp1ProcessTag pg (get_plan_label pg.text) t acc) r)
    ⟨fun _ _ => 0, fun _ _ => 0⟩

/-- The observable outcome of a successful `run_pipeline` run: the merged
declared tag list and the matching counters (the Excel/JSON serialization
is I/O of exactly this data). -/
structure PipelineResult where
  allTags : List Str
  counts : Mp1Counts

/-- `run_pipeline` from `src/mechanical_processor1.py` (lines 215-250),
with the PDF-extraction and Excel-extraction results abstracted as the
input lists `pdfMarks` and `excelTags` (the claim under test concerns the
pipeline's behaviour after extraction):
`all_tags = sorted(set(pdf_marks + excel_tags))`, raise
`ValueError("No tags found in PDF or Excel")` when empty, otherwise run
`highlight_pdf_and_count`. -/
def run_pipeline (doc : List Page) (pdfMarks excelTags : List Str) :
    Except String PipelineResult :=
  let allTags := sortedStrs (pdfMarks ++ excelTags)
  if allTags = [] then Except.error "No tags found in PDF or Excel"
  else Except.ok ⟨allTags, highlight_pdf_and_count doc allTags⟩

/-! ### Auxiliary lemmas -/

theorem sortedStrs_eq_nil_iff (l : List Str) : sortedStrs l = [] ↔ l = [] := by
  unfold sortedStrs
  constructor
  · intro h
    have hp := List.perm_insertionSort strLeP l.dedup
    rw [h] at hp
    exact (List.dedup_eq_nil _).mp hp.nil_eq.symm
  · intro h
    subst h
    rfl

theorem length_build_type_color_map (types : List Str) :
    (build_type_color_map types).length = (sortedStrs types).length := by
  simp [build_type_color_map]

theorem takeWhile_length_le_of_false {p : Char → Bool} :
    ∀ (s : Str) (k : Nat) (c : Char) (t : Str),
      s.drop k = c :: t → p c = false → (s.takeWhile p).length ≤ k := by
  intro s
  induction s with
  | nil => intro k c t hd _; simp at hd
  | cons a s ih =>
    intro k c t hd hp
    cases k with
    | zero =>
      simp at hd
      rcases hd with ⟨h1, _⟩
      subst h1
      simp [List.takeWhile_cons, hp]
    | succ k =>
      simp only [List.drop_succ_cons] at hd
      by_cases hpa : p a
      · simp only [List.takeWhile_cons, hpa, if_true, List.length_cons]
        exact Nat.succ_le_succ (ih k c t hd hp)
      · simp [List.takeWhile_cons, hpa]

theorem le_takeWhile_length {p : Char → Bool} :
    ∀ (s : Str) (k : Nat), (s.take k).length = k →
      (s.take k).all p = true → k ≤ (s.takeWhile p).length := by
  intro s
  induction s with
  | nil =>
    intro k hl _
    simp at hl
    omega
  | cons a s ih =>
    intro k hl ha
    cases k with
    | zero => exact Nat.zero_le _
    | succ k =>
      simp only [List.take_succ_cons, List.length_cons, Nat.succ.injEq] at hl
      simp only [List.take_succ_cons, List.all_cons, Bool.and_eq_true] at ha
      simp only [List.takeWhile_cons, ha.1, if_true, List.length_cons]
      exact Nat.succ_le_succ (ih k hl ha.2)

theorem take_takeWhile_length {p : Char → Bool} (s : Str) :
    s.take (s.takeWhile p).length = s.takeWhile p :=
  (List.prefix_iff_eq_take.mp (List.takeWhile_prefix p)).symm

theorem hyphenDigitNext_eq_true {l : Str} (h : hyphenDigitNext l = true) :
    ∃ d t, l = '-' :: d :: t ∧ d.isDigit = true := by
  unfold hyphenDigitNext at h
  split at h
  · exact ⟨_, _, rfl, h⟩
  · exact absurd h (by simp)

/-! ### Claim theorems: C9, C5, C8, C4, C7 -/

/-- C9: the Readability Normalizer returns its input document unchanged
exactly when one of the first 3 sampled pages yields stripped text longer
than 50 characters; the OCR branch runs only when every sampled page fails
the check, so the decision is document-level. -/
theorem readability_sample_decision (ocr : List (Option Str) → List (Option Str))
    (doc : List (Option Str)) :
    ((doc.take 3).any pageReadable = true → ensure_searchable_pdf ocr doc = doc) ∧
    ((doc.take 3).any pageReadable = false → ensure_searchable_pdf ocr doc = ocr doc) := by
  unfold ensure_searchable_pdf
  constructor <;> intro h <;> simp [h]

/-- Witness for C9: a document whose first page holds 60 non-blank
characters is returned unchanged; one with a single short page is handed
to the OCR collaborator. -/
theorem readability_sample_decision_witness :
    ensure_searchable_pdf (fun _ => []) [some (List.replicate 60 'a')] =
      [some (List.replicate 60 'a')] ∧
    ensure_searchable_pdf (fun _ => [none]) [some (str "short")] = [none] :=
  ⟨(readability_sample_decision (fun _ => []) [some (List.replicate 60 'a')]).1 (by decide),
   (readability_sample_decision (fun _ => [none]) [some (str "short")]).2 (by decide)⟩

/-- C5: `run_pipeline` terminates with the fatal "no tags" error exactly
when the merged declared mark set is empty after extraction, producing no
output; with a non-empty set it proceeds to matching. -/
theorem run_pipeline_no_tags_fatal (doc : List Page) (pdfMarks excelTags : List Str) :
    (pdfMarks ++ excelTags = [] →
      run_pipeline doc pdfMarks excelTags =
        Except.error "No tags found in PDF or Excel") ∧
    (pdfMarks ++ excelTags ≠ [] →
      run_pipeline doc pdfMarks excelTags =
        Except.ok ⟨sortedStrs (pdfMarks ++ excelTags),
          highlight_pdf_and_count doc (sortedStrs (pdfMarks ++ excelTags))⟩) := by
  constructor <;> intro h <;> unfold run_pipeline
  · rw [if_pos ((sortedStrs_eq_nil_iff _).mpr h)]
  · rw [if_neg (fun hc => h ((sortedStrs_eq_nil_iff _).mp hc))]

/-- Witness for C5: with nothing extracted the run fails fatally; with one
declared mark the matcher runs. -/
theorem run_pipeline_no_tags_fatal_witness :
    run_pipeline [] [] [] = Except.error "No tags found in PDF or Excel" ∧
    run_pipeline [] [str "AC-1"] [] =
      Except.ok ⟨sortedStrs ([str "AC-1"] ++ []),
        highlight_pdf_and_count [] (sortedStrs ([str "AC-1"] ++ []))⟩ :=
  ⟨(run_pipeline_no_tags_fatal [] [] []).1 rfl,
   (run_pipeline_no_tags_fatal [] [str "AC-1"] []).2 (by decide)⟩

/-- C8: `mark_type` is total, returns "FCU" on "FCU-12" in both the
`src/app.py` and `src/mechanical_processor.py` variants, returns the
defined fallback "1" on "1-1", and in general, when no leading letter
exists, falls back to the text before the first hyphen or the whole
string. -/
theorem mark_type_total :
    markTypeApp (str "FCU-12") = str "FCU" ∧
    markTypeApp (str "1-1") = str "1" ∧
    mark_type_mp (str "FCU-12") = str "FCU" ∧
    mark_type_mp (str "1-1") = str "1" ∧
    (∀ mark : Str, mark.takeWhile Char.isAlpha = [] →
      markTypeApp mark =
        (if mark.contains '-' then upperStr (mark.takeWhile fun c => c ≠ '-')
         else upperStr mark)) := by
  refine ⟨by decide, by decide, by decide, by decide, ?_⟩
  intro mark h
  unfold markTypeApp
  rw [h]
  simp

/-- Witness for C8, applying the fallback clause at the concrete mark
"1-1" (which has no leading letters). -/
theorem mark_type_total_witness :
    markTypeApp (str "1-1") =
      (if (str "1-1").contains '-' then upperStr ((str "1-1").takeWhile fun c => c ≠ '-')
       else upperStr (str "1-1")) :=
  mark_type_total.2.2.2.2 (str "1-1") (by decide)

/-- C4: `build_type_color_map` depends only on the set underlying its
input list (permutations and duplications give identical maps), and it
assigns to the i-th type in sorted order the palette entry at index
`i % len(palette)`. -/
theorem type_color_map_deterministic :
    (∀ t1 t2 : List Str, (∀ x, x ∈ t1 ↔ x ∈ t2) →
      build_type_color_map t1 = build_type_color_map t2) ∧
    (∀ (types : List Str) (i : Nat), i < (sortedStrs types).length →
      (build_type_color_map types).getD i ([], (0, 0, 0)) =
        ((sortedStrs types).getD i [], palette.getD (i % palette.length) (0, 0, 0))) := by
  constructor
  · intro t1 t2 hmem
    have hd : t1.dedup.Perm t2.dedup :=
      (List.perm_ext_iff_of_nodup t1.nodup_dedup t2.nodup_dedup).mpr
        (by intro a; simpa [List.mem_dedup] using hmem a)
    have hs : sortedStrs t1 = sortedStrs t2 := by
      refine List.eq_of_perm_of_sorted
        (((List.perm_insertionSort strLeP t1.dedup).trans hd).trans
          (List.perm_insertionSort strLeP t2.dedup).symm)
        (List.sorted_insertionSort strLeP t1.dedup)
        (List.sorted_insertionSort strLeP t2.dedup)
    unfold build_type_color_map
    rw [hs]
  · intro types i h
    have h2 : i < (build_type_color_map types).length := by
      rw [length_build_type_color_map]; exact h
    rw [List.getD_eq_getElem _ _ h2, List.getD_eq_getElem _ _ h]
    simp [build_type_color_map]

/-- Witness for C4: a duplicated permutation of {"FCU", "AC"} yields the
same map, and the 0-th sorted type receives palette entry 0. -/
theorem type_color_map_deterministic_witness :
    build_type_color_map [str "FCU", str "AC", str "FCU"] =
      build_type_color_map [str "AC", str "FCU"] ∧
    (build_type_color_map [str "AC", str "FCU"]).getD 0 ([], (0, 0, 0)) =
      ((sortedStrs [str "AC", str "FCU"]).getD 0 [],
        palette.getD (0 % palette.length) (0, 0, 0)) :=
  ⟨type_color_map_deterministic.1 _ _ (by intro x; simp; tauto),
   type_color_map_deterministic.2 [str "AC", str "FCU"] 0 (by decide)⟩

/-- C7 counterexample: `build_search_variants` in
`src/mechanical_processor1.py` also queries the lowercased mark, so for
the declared mark "AC-1" its variant set is not the claimed three-element
set {canonical, space, no-separator}. -/
theorem search_variants_counterexample :
    str "ac-1" ∈ build_search_variants (str "AC-1") ∧
    str "ac-1" ∉ ({str "AC-1", str "AC 1", str "AC1"} : Finset Str) := by
  decide

/-- C7 amended: for every hyphen-containing mark, the `src/app.py` /
`src/app1.py` matcher queries exactly the three variants {canonical,
hyphen→space, hyphen removed} (all distinct), while
`src/mechanical_processor1.py` additionally queries the lowercased mark. -/
theorem search_variants_amended (m : Str) (h : '-' ∈ m) :
    (variants1 m).toFinset = ({m, hyphenToSpace m, dropHyphens m} : Finset Str) ∧
    build_search_variants m =
      insert (lowerStr m) ({m, hyphenToSpace m, dropHyphens m} : Finset Str) ∧
    ({m, hyphenToSpace m, dropHyphens m} : Finset Str).card = 3 := by
  have hsp : ¬ '-' ∈ hyphenToSpace m := by
    intro hc
    rcases List.mem_map.mp hc with ⟨c, _, hce⟩
    by_cases hc' : c = '-' <;> simp [hc'] at hce
  have hdh : ¬ '-' ∈ dropHyphens m := by
    intro hc
    have := (List.mem_filter.mp hc).2
    simp at this
  have h1 : m ≠ hyphenToSpace m := fun he => hsp (he ▸ h)
  have h2 : m ≠ dropHyphens m := fun he => hdh (he ▸ h)
  have hlen : (dropHyphens m).length < (hyphenToSpace m).length := by
    unfold dropHyphens hyphenToSpace
    rw [List.length_map]
    exact List.length_filter_lt_length_iff_exists.mpr ⟨'-', h, by simp⟩
  have h3 : hyphenToSpace m ≠ dropHyphens m := by
    intro he
    rw [he] at hlen
    exact lt_irrefl _ hlen
  refine ⟨by simp [variants1], ?_, ?_⟩
  · unfold build_search_variants
    ext x
    simp
    tauto
  · rw [Finset.card_insert_of_not_mem (by simp [h1, h2]),
      Finset.card_insert_of_not_mem (by simp [h3])]
    rfl

/-- C2 counterexample: the extraction pattern `^[A-Z]{1,4}-\d+` rejects the
token "ABCDE-1", whose letter run has exactly 5 letters, although the
claim requires a 5-letter prefix with a 1-digit number to match. -/
theorem mark_regex_five_letters_rejected :
    markRegexMatch (str "ABCDE-1") = false := by decide

/-- C2 amended: a raw token matches the mark extraction pattern if and
only if its leading letter run has length between 1 and 4 (not 5) and is
immediately followed by a hyphen and at least one digit. -/
theorem mark_regex_letter_run (s : Str) :
    markRegexMatch s = true ↔
      (1 ≤ (s.takeWhile Char.isAlpha).length ∧ (s.takeWhile Char.isAlpha).length ≤ 4 ∧
        hyphenDigitNext (s.drop (s.takeWhile Char.isAlpha).length) = true) := by
  constructor
  · intro h
    rcases List.any_eq_true.mp h with ⟨k, hk, hstep⟩
    unfold lettersThenHyphenDigit at hstep
    simp only [Bool.and_eq_true] at hstep
    rcases hstep with ⟨⟨h1, h2⟩, h3⟩
    have hlen : (s.take k).length = k := of_decide_eq_true h1
    have hk14 : 1 ≤ k ∧ k ≤ 4 := by
      simp at hk
      omega
    rcases hyphenDigitNext_eq_true h3 with ⟨d, t, hdrop, _⟩
    have hle : (s.takeWhile Char.isAlpha).length ≤ k :=
      takeWhile_length_le_of_false s k '-' (d :: t) hdrop (by decide)
    have hge : k ≤ (s.takeWhile Char.isAlpha).length :=
      le_takeWhile_length s k hlen h2
    have heq : (s.takeWhile Char.isAlpha).length = k := le_antisymm hle hge
    rw [heq]
    exact ⟨hk14.1, hk14.2, h3⟩
  · rintro ⟨h1, h4, hnext⟩
    apply List.any_eq_true.mpr
    refine ⟨(s.takeWhile Char.isAlpha).length, by simp; omega, ?_⟩
    unfold lettersThenHyphenDigit
    simp only [Bool.and_eq_true]
    refine ⟨⟨?_, ?_⟩, hnext⟩
    · rw [take_takeWhile_length]
      simp
    · rw [take_takeWhile_length]
      exact List.all_eq_true.mpr fun c hc => List.mem_takeWhile_imp hc

/-- Witness for C7's amended statement at the concrete mark "AC-1". -/
theorem search_variants_amended_witness :
    (variants1 (str "AC-1")).toFinset =
      ({str "AC-1", hyphenToSpace (str "AC-1"), dropHyphens (str "AC-1")} : Finset Str) ∧
    build_search_variants (str "AC-1") =
      insert (lowerStr (str "AC-1"))
        ({str "AC-1", hyphenToSpace (str "AC-1"), dropHyphens (str "AC-1")} : Finset Str) ∧
    ({str "AC-1", hyphenToSpace (str "AC-1"), dropHyphens (str "AC-1")} : Finset Str).card = 3 :=
  search_variants_amended (str "AC-1") (by decide)

/-! ### Behaviour of the `highlight_pdf` fold (`src/app1.py`) -/

theorem processMark_of_zero {pg : Page} {m : Str} (pl : Option Str) (r : Report)
    (h : pageRectCount pg m = 0) : processMark pg pl m r = r := by
  simp [processMark, h]

theorem processMark_of_none {pg : Page} {m : Str} (r : Report)
    (h : pageRectCount pg m ≠ 0) :
    processMark pg none m r = { r with found := insert m r.found } := by
  simp [processMark, h]

theorem processMark_of_some {pg : Page} {m : Str} (p : Str) (r : Report)
    (h : pageRectCount pg m ≠ 0) :
    processMark pg (some p) m r =
      ⟨insert m r.found,
        bump r.planMark p m (pageRectCount pg m),
        bump r.planType p (mark_type1 m) (pageRectCount pg m)⟩ := by
  simp [processMark, h]

theorem processMark_found_mono (pg : Page) (pl : Option Str) (m : Str) (r : Report) :
    r.found ⊆ (processMark pg pl m r).found := by
  by_cases h : pageRectCount pg m = 0
  · rw [processMark_of_zero pl r h]
  · cases pl with
    | none => rw [processMark_of_none r h]; exact Finset.subset_insert m r.found
    | some p => rw [processMark_of_some p r h]; exact Finset.subset_insert m r.found

theorem processMark_found_subset (pg : Page) (pl : Option Str) (m : Str) (r : Report) :
    (processMark pg pl m r).found ⊆ insert m r.found := by
  by_cases h : pageRectCount pg m = 0
  · rw [processMark_of_zero pl r h]; exact Finset.subset_insert m r.found
  · cases pl with
    | none => rw [processMark_of_none r h]
    | some p => rw [processMark_of_some p r h]

theorem processMark_found_self (pg : Page) (pl : Option Str) (m : Str) (r : Report)
    (h : pageRectCount pg m ≠ 0) : m ∈ (processMark pg pl m r).found := by
  cases pl with
  | none => rw [processMark_of_none r h]; exact Finset.mem_insert_self m r.found
  | some p => rw [processMark_of_some p r h]; exact Finset.mem_insert_self m r.found

theorem foldMarks_found_mono (pg : Page) (pl : Option Str) :
    ∀ (ms : List Str) (r : Report),
      r.found ⊆ (ms.foldl (fun acc m => processMark pg pl m acc) r).found := by
  intro ms
  induction ms with
  | nil => intro r; exact Finset.Subset.refl _
  | cons a ms ih =>
    intro r
    exact (processMark_found_mono pg pl a r).trans (ih (processMark pg pl a r))

theorem foldMarks_found_subset (pg : Page) (pl : Option Str) :
    ∀ (ms : List Str) (r : Report),
      (ms.foldl (fun acc m => processMark pg pl m acc) r).found ⊆ r.found ∪ ms.toFinset := by
  intro ms
  induction ms with
  | nil => intro r; simp
  | cons a ms ih =>
    intro r
    refine (ih (processMark pg pl a r)).trans ?_
    intro x hx
    rcases Finset.mem_union.mp hx with hx | hx
    · rcases Finset.mem_insert.mp (processMark_found_subset pg pl a r hx) with hx | hx
      · subst hx; simp
      · simp [hx]
    · simp [hx]

theorem foldMarks_found_reach (pg : Page) (pl : Option Str) :
    ∀ (ms : List Str) (r : Report) (m : Str), m ∈ ms → pageRectCount pg m ≠ 0 →
      m ∈ (ms.foldl (fun acc m => processMark pg pl m acc) r).found := by
  intro ms
  induction ms with
  | nil => intro r m hm; exact absurd hm (List.not_mem_nil m)
  | cons a ms ih =>
    intro r m hm hn
    rcases List.mem_cons.mp hm with hm | hm
    · subst hm
      exact foldMarks_found_mono pg pl ms _ (processMark_found_self pg pl m r hn)
    · exact ih _ m hm hn

theorem processPage_found_mono (marks : List Str) (r : Report) (pg : Page) :
    r.found ⊆ (processPage marks r pg).found :=
  foldMarks_found_mono pg (get_plan_label pg.text) marks r

theorem highlight_found_mono (marks : List Str) :
    ∀ (doc : List Page) (r : Report),
      r.found ⊆ (doc.foldl (processPage marks) r).found := by
  intro doc
  induction doc with
  | nil => intro r; exact Finset.Subset.refl _
  | cons pg doc ih =>
    intro r
    exact (processPage_found_mono marks r pg).trans (ih (processPage marks r pg))

theorem highlight_found_subset_aux (marks : List Str) :
    ∀ (doc : List Page) (r : Report), r.found ⊆ marks.toFinset →
      (doc.foldl (processPage marks) r).found ⊆ marks.toFinset := by
  intro doc
  induction doc with
  | nil => intro r h; exact h
  | cons pg doc ih =>
    intro r h
    refine ih (processPage marks r pg) ?_
    refine (foldMarks_found_subset pg (get_plan_label pg.text) marks r).trans ?_
    exact Finset.union_subset h (Finset.Subset.refl _)

/-- Every mark ever added to `found_tags` is drawn from the declared list. -/
theorem highlight_found_subset (doc : List Page) (marks : List Str) :
    (highlight_pdf doc marks).found ⊆ marks.toFinset :=
  highlight_found_subset_aux marks doc emptyReport (Finset.empty_subset _)

/-- C1: the reconciliation run partitions the declared marks — the found
set and the missing set (declared minus found) are disjoint and their
union is exactly the declared set, for every document and declared list. -/
theorem found_missing_partition (doc : List Page) (marks : List Str) :
    (highlight_pdf doc marks).found ∪ missing_tags doc marks = marks.toFinset ∧
    (highlight_pdf doc marks).found ∩ missing_tags doc marks = ∅ := by
  constructor
  · rw [missing_tags, Finset.union_sdiff_self_eq_union]
    exact Finset.union_eq_right.mpr (highlight_found_subset doc marks)
  · rw [missing_tags]
    exact Finset.inter_sdiff_self _ _

/-- The sum, over the declared marks of a given type, of the per-mark
counts: the quantity that the per-type counter table must track. -/
def typeSum (F : Finset Str) (pm : Str → Str → Nat) (P T : Str) : Nat :=
  ∑ m ∈ F.filter (fun x => mark_type1 x = T), pm P m

theorem processMark_type_inv (pg : Page) (pl : Option Str) (m : Str) (F : Finset Str)
    (r : Report) (hm : m ∈ F)
    (h : ∀ P T, r.planType P T = typeSum F r.planMark P T) :
    ∀ P T, (processMark pg pl m r).planType P T =
      typeSum F (processMark pg pl m r).planMark P T := by
  by_cases hn : pageRectCount pg m = 0
  · rw [processMark_of_zero pl r hn]; exact h
  · cases pl with
    | none => rw [processMark_of_none r hn]; exact h
    | some p =>
      rw [processMark_of_some p r hn]
      intro P T
      simp only [typeSum, bump]
      by_cases hP : P = p
      · subst hP
        simp only [eq_self_iff_true, true_and]
        have hsum :
            (∑ x ∈ F.filter (fun x => mark_type1 x = T),
              if x = m then r.planMark P x + pageRectCount pg m else r.planMark P x) =
            (∑ x ∈ F.filter (fun x => mark_type1 x = T), r.planMark P x) +
              (if m ∈ F.filter (fun x => mark_type1 x = T) then pageRectCount pg m else 0) := by
          rw [← Finset.sum_ite_eq' (F.filter (fun x => mark_type1 x = T)) m
            (fun _ => pageRectCount pg m), ← Finset.sum_add_distrib]
          refine Finset.sum_congr rfl fun x _ => ?_
          by_cases hx : x = m <;> simp [hx]
        rw [hsum]
        by_cases hT : T = mark_type1 m
        · rw [if_pos hT,
            if_pos (show m ∈ F.filter (fun x => mark_type1 x = T) from
              Finset.mem_filter.mpr ⟨hm, hT.symm⟩),
            h P T]
          simp [typeSum]
        · rw [if_neg hT,
            if_neg (show m ∉ F.filter (fun x => mark_type1 x = T) from
              fun hc => hT (Finset.mem_filter.mp hc).2.symm),
            h P T]
          simp [typeSum]
      · simp only [hP, false_and, if_false]
        rw [h P T]
        exact Finset.sum_congr rfl fun x _ => by simp [hP]

theorem foldMarks_type_inv (pg : Page) (pl : Option Str) (F : Finset Str) :
    ∀ (ms : List Str) (r : Report), (∀ x ∈ ms, x ∈ F) →
      (∀ P T, r.planType P T = typeSum F r.planMark P T) →
      ∀ P T, ((ms.foldl (fun acc m => processMark pg pl m acc) r)).planType P T =
        typeSum F ((ms.foldl (fun acc m => processMark pg pl m acc) r)).planMark P T := by
  intro ms
  induction ms with
  | nil => intro r _ h; exact h
  | cons a ms ih =>
    intro r hall h
    exact ih _ (fun x hx => hall x (List.mem_cons_of_mem a hx))
      (processMark_type_inv pg pl a F r (hall a (List.mem_cons_self a ms)) h)

theorem highlight_type_inv (marks : List Str) (F : Finset Str)
    (hall : ∀ x ∈ marks, x ∈ F) :
    ∀ (doc : List Page) (r : Report),
      (∀ P T, r.planType P T = typeSum F r.planMark P T) →
      ∀ P T, (doc.foldl (processPage marks) r).planType P T =
        typeSum F (doc.foldl (processPage marks) r).planMark P T := by
  intro doc
  induction doc with
  | nil => intro r h; exact h
  | cons pg doc ih =>
    intro r h
    exact ih _ (foldMarks_type_inv pg (get_plan_label pg.text) F marks r hall h)

/-- C10: in every produced report, the per-plan per-type count equals the
sum of the per-plan per-mark counts over the declared marks of that type —
the two aggregates are always incremented together. -/
theorem plan_type_counts_consistent (doc : List Page) (marks : List Str) (P T : Str) :
    (highlight_pdf doc marks).planType P T =
      ∑ m ∈ marks.toFinset.filter (fun x => mark_type1 x = T),
        (highlight_pdf doc marks).planMark P m :=
  highlight_type_inv marks marks.toFinset (fun x hx => List.mem_toFinset.mpr hx)
    doc emptyReport (fun _ _ => by simp [emptyReport, typeSum]) P T

theorem highlight_found_reach (marks : List Str) :
    ∀ (doc : List Page) (r : Report) (pg : Page), pg ∈ doc →
      ∀ m, m ∈ marks → pageRectCount pg m ≠ 0 →
        m ∈ (doc.foldl (processPage marks) r).found := by
  intro doc
  induction doc with
  | nil => intro r pg hpg; exact absurd hpg (List.not_mem_nil pg)
  | cons pg' doc ih =>
    intro r pg hpg m hm hn
    rcases List.mem_cons.mp hpg with hpg | hpg
    · subst hpg
      exact highlight_found_mono marks doc _
        (foldMarks_found_reach pg (get_plan_label pg.text) marks r m hm hn)
    · exact ih _ pg hpg m hm hn

theorem processMark_zeroRow (pg : Page) (pl : Option Str) (m0 m : Str) (r : Report)
    (hz : ∀ P, r.planMark P m0 = 0)
    (hc : m = m0 → pageRectCount pg m0 ≠ 0 → pl = none) :
    ∀ P, (processMark pg pl m r).planMark P m0 = 0 := by
  by_cases hn : pageRectCount pg m = 0
  · rw [processMark_of_zero pl r hn]; exact hz
  · cases pl with
    | none => rw [processMark_of_none r hn]; exact hz
    | some p =>
      rw [processMark_of_some p r hn]
      intro P
      by_cases hm : m = m0
      · subst hm
        exact absurd (hc rfl hn) (by simp)
      · simp only [bump]
        rw [if_neg (fun hand => hm hand.2.symm)]
        exact hz P

theorem foldMarks_zeroRow (pg : Page) (pl : Option Str) (m0 : Str)
    (hpg : pageRectCount pg m0 ≠ 0 → pl = none) :
    ∀ (ms : List Str) (r : Report), (∀ P, r.planMark P m0 = 0) →
      ∀ P, ((ms.foldl (fun acc m => processMark pg pl m acc) r)).planMark P m0 = 0 := by
  intro ms
  induction ms with
  | nil => intro r hz; exact hz
  | cons a ms ih =>
    intro r hz
    exact ih _ (processMark_zeroRow pg pl m0 a r hz (fun _ => hpg))

theorem highlight_zeroRow (marks : List Str) (m0 : Str) :
    ∀ (doc : List Page) (r : Report),
      (∀ pg ∈ doc, pageRectCount pg m0 ≠ 0 → get_plan_label pg.text = none) →
      (∀ P, r.planMark P m0 = 0) →
      ∀ P, ((doc.foldl (processPage marks) r)).planMark P m0 = 0 := by
  intro doc
  induction doc with
  | nil => intro r _ hz; exact hz
  | cons pg doc ih =>
    intro r hplan hz
    refine ih _ (fun p hp => hplan p (List.mem_cons_of_mem pg hp)) ?_
    exact foldMarks_zeroRow pg (get_plan_label pg.text) m0
      (hplan pg (List.mem_cons_self pg doc)) marks r hz

/-- C6: a declared mark whose only located boxes lie on pages without a
plan label is still added to the found set (hence excluded from missing),
yet its row in the plan→mark table is identically zero and it contributes
nothing to any plan→type aggregate. -/
theorem found_without_plan_label (doc : List Page) (marks : List Str) (m : Str)
    (hm : m ∈ marks)
    (hplan : ∀ pg ∈ doc, pageRectCount pg m ≠ 0 → get_plan_label pg.text = none)
    (hhit : ∃ pg ∈ doc, pageRectCount pg m ≠ 0) :
    m ∈ (highlight_pdf doc marks).found ∧
    m ∉ missing_tags doc marks ∧
    (∀ P, (highlight_pdf doc marks).planMark P m = 0) ∧
    (∀ P, (highlight_pdf doc marks).planType P (mark_type1 m) =
      ∑ x ∈ (marks.toFinset.filter (fun x => mark_type1 x = mark_type1 m)).erase m,
        (highlight_pdf doc marks).planMark P x) := by
  obtain ⟨pg, hpg, hn⟩ := hhit
  have hfound : m ∈ (highlight_pdf doc marks).found :=
    highlight_found_reach marks doc emptyReport pg hpg m hm hn
  have hzero : ∀ P, (highlight_pdf doc marks).planMark P m = 0 :=
    highlight_zeroRow marks m doc emptyReport hplan (fun _ => rfl)
  refine ⟨hfound, ?_, hzero, ?_⟩
  · intro hc
    exact (Finset.mem_sdiff.mp hc).2 hfound
  · intro P
    have hinv : (highlight_pdf doc marks).planType P (mark_type1 m) =
        typeSum marks.toFinset (highlight_pdf doc marks).planMark P (mark_type1 m) :=
      highlight_type_inv marks marks.toFinset (fun x hx => List.mem_toFinset.mpr hx)
        doc emptyReport (fun _ _ => by simp [emptyReport, typeSum]) P (mark_type1 m)
    rw [hinv]
    exact (Finset.sum_erase _ (hzero P)).symm

/-- A concrete page with no plan label whose search capability locates
"AC-1" once. -/
def noPlanPage : Page :=
  ⟨[], fun v => if v = str "AC-1" then [⟨0, 0, 1, 1⟩] else []⟩

/-- Witness for C6 on a one-page document without a plan label. -/
theorem found_without_plan_label_witness :
    str "AC-1" ∈ (highlight_pdf [noPlanPage] [str "AC-1"]).found ∧
    str "AC-1" ∉ missing_tags [noPlanPage] [str "AC-1"] ∧
    (highlight_pdf [noPlanPage] [str "AC-1"]).planMark (str "M1") (str "AC-1") = 0 ∧
    (highlight_pdf [noPlanPage] [str "AC-1"]).planType (str "M1") (mark_type1 (str "AC-1")) =
      ∑ x ∈ (([str "AC-1"].toFinset.filter
          (fun x => mark_type1 x = mark_type1 (str "AC-1")))).erase (str "AC-1"),
        (highlight_pdf [noPlanPage] [str "AC-1"]).planMark (str "M1") x := by
  have h := found_without_plan_label [noPlanPage] [str "AC-1"] (str "AC-1")
    (by decide)
    (by
      intro pg hpg _
      have he : pg = noPlanPage := by
        rcases List.mem_cons.mp hpg with he | he
        · exact he
        · exact absurd he (List.not_mem_nil pg)
      subst he
      decide)
    ⟨noPlanPage, by simp, by decide⟩
  exact ⟨h.1, h.2.1, h.2.2.1 (str "M1"), h.2.2.2 (str "M1")⟩

/-! ### Character-level facts about ASCII uppercasing -/

theorem char_toUpper_of_range {c : Char} (h1 : 97 ≤ c.toNat) (h2 : c.toNat ≤ 122) :
    Char.toUpper c = Char.ofNat (c.toNat - 32) := by
  unfold Char.toUpper
  rw [if_pos ⟨h1, h2⟩]

theorem char_toUpper_of_not_range {c : Char} (h : ¬(97 ≤ c.toNat ∧ c.toNat ≤ 122)) :
    Char.toUpper c = c := by
  unfold Char.toUpper
  rw [if_neg h]

theorem char_isAlpha_toUpper {c : Char} (h : c.isAlpha = true) :
    (Char.toUpper c).isAlpha = true := by
  by_cases hr : 97 ≤ c.toNat ∧ c.toNat ≤ 122
  · obtain ⟨ha, hb⟩ := hr
    rw [char_toUpper_of_range ha hb]
    generalize hn : c.toNat = n at ha hb
    interval_cases n <;> decide
  · rw [char_toUpper_of_not_range hr]
    exact h

theorem char_toUpper_toUpper (c : Char) :
    Char.toUpper (Char.toUpper c) = Char.toUpper c := by
  by_cases hr : 97 ≤ c.toNat ∧ c.toNat ≤ 122
  · obtain ⟨ha, hb⟩ := hr
    rw [char_toUpper_of_range ha hb]
    generalize hn : c.toNat = n at ha hb
    interval_cases n <;> decide
  · have h := char_toUpper_of_not_range hr
    rw [h, h]

theorem char_isWhitespace_cases {c : Char} (h : c.isWhitespace = true) :
    c = ' ' ∨ c = '\t' ∨ c = '\r' ∨ c = '\n' := by
  unfold Char.isWhitespace at h
  simp only [Bool.or_eq_true, decide_eq_true_eq] at h
  tauto

theorem char_not_isAlpha_of_isWhitespace {c : Char} (h : c.isWhitespace = true) :
    c.isAlpha = false := by
  rcases char_isWhitespace_cases h with h1 | h1 | h1 | h1 <;> subst h1 <;> decide

theorem char_not_isWhitespace_of_isDigit {c : Char} (h : c.isDigit = true) :
    c.isWhitespace = false := by
  by_cases hw : c.isWhitespace = true
  · rcases char_isWhitespace_cases hw with h1 | h1 | h1 | h1 <;> subst h1 <;> exact absurd h (by decide)
  · simpa using hw

theorem char_sep6_not_isAlpha {c : Char} (h : c ∈ sepChars6) : c.isAlpha = false := by
  simp only [sepChars6, List.mem_cons, List.not_mem_nil, or_false] at h
  rcases h with h1 | h1 | h1 | h1 | h1 <;> subst h1 <;> decide

theorem char_sep6_not_isWhitespace {c : Char} (h : c ∈ sepChars6) :
    c.isWhitespace = false := by
  simp only [sepChars6, List.mem_cons, List.not_mem_nil, or_false] at h
  rcases h with h1 | h1 | h1 | h1 | h1 <;> subst h1 <;> decide

theorem char_sep6_not_contains_digit {c : Char} (h : c.isDigit = true) :
    sepChars6.contains c = false := by
  by_cases hc : sepChars6.contains c = true
  · have hm : c ∈ sepChars6 := by
      simpa using hc
    simp only [sepChars6, List.mem_cons, List.not_mem_nil, or_false] at hm
    rcases hm with h1 | h1 | h1 | h1 | h1 <;> subst h1 <;> exact absurd h (by decide)
  · simpa using hc

/-! ### List splitting facts used by the canonicalizer -/

theorem takeWhile_append_eq {p : Char → Bool} :
    ∀ (xs ys : Str), (∀ x ∈ xs, p x = true) →
      (∀ y t, ys = y :: t → p y = false) →
      (xs ++ ys).takeWhile p = xs := by
  intro xs
  induction xs with
  | nil =>
    intro ys _ h2
    cases ys with
    | nil => rfl
    | cons y t => simp [List.takeWhile_cons, h2 y t rfl]
  | cons a xs ih =>
    intro ys h1 h2
    have ha := h1 a (List.mem_cons_self a xs)
    simp [List.takeWhile_cons, ha,
      ih ys (fun x hx => h1 x (List.mem_cons_of_mem a hx)) h2]

theorem dropWhile_append_eq {p : Char → Bool} :
    ∀ (xs : Str) (y : Char) (t : Str), (∀ x ∈ xs, p x = true) → p y = false →
      (xs ++ y :: t).dropWhile p = y :: t := by
  intro xs
  induction xs with
  | nil => intro y t _ hy; simp [List.dropWhile_cons, hy]
  | cons a xs ih =>
    intro y t h1 hy
    have ha := h1 a (List.mem_cons_self a xs)
    simp only [List.cons_append, List.dropWhile_cons, ha, if_true]
    exact ih y t (fun x hx => h1 x (List.mem_cons_of_mem a hx)) hy

theorem upperStr_idem (s : Str) : upperStr (upperStr s) = upperStr s := by
  unfold upperStr
  rw [List.map_map]
  exact List.map_congr_left fun c _ => char_toUpper_toUpper c

theorem sep6_contains_of_mem {c : Char} (h : c ∈ sepChars6) :
    sepChars6.contains c = true := by
  simpa using h

/-- Evaluation of the app6 canonicalizer on a token in separator form:
letters, optional whitespace, one separator character, optional
whitespace, digits. -/
theorem canonApp6_sep_eval (L D : Str) (sc : Char) (w1 w2 : Str)
    (hL : ∀ x ∈ L, x.isAlpha = true) (h1 : 1 ≤ L.length) (h4 : L.length ≤ 4)
    (hD : D ≠ []) (hDig : ∀ x ∈ D, x.isDigit = true)
    (hsc : sc ∈ sepChars6)
    (hw1 : ∀ x ∈ w1, x.isWhitespace = true) (hw2 : ∀ x ∈ w2, x.isWhitespace = true) :
    canonApp6 (L ++ w1 ++ sc :: (w2 ++ D)) = some (upperStr L ++ '-' :: D) := by
  obtain ⟨d, D', hDe⟩ : ∃ d D', D = d :: D' := by
    cases D with
    | nil => exact absurd rfl hD
    | cons d D' => exact ⟨d, D', rfl⟩
  subst hDe
  rw [List.append_assoc]
  have htw : (L ++ (w1 ++ sc :: (w2 ++ d :: D'))).takeWhile Char.isAlpha = L := by
    apply takeWhile_append_eq _ _ hL
    intro y t he
    cases w1 with
    | nil =>
      injection he with he1 _
      subst he1
      exact char_sep6_not_isAlpha hsc
    | cons a w1' =>
      injection he with he1 _
      subst he1
      exact char_not_isAlpha_of_isWhitespace (hw1 a (List.mem_cons_self a w1'))
  have hdw : (w1 ++ sc :: (w2 ++ d :: D')).dropWhile Char.isWhitespace =
      sc :: (w2 ++ d :: D') :=
    dropWhile_append_eq w1 sc _ hw1 (char_sep6_not_isWhitespace hsc)
  have hdw2 : (w2 ++ d :: D').dropWhile Char.isWhitespace = d :: D' :=
    dropWhile_append_eq w2 d D' hw2
      (char_not_isWhitespace_of_isDigit (hDig d (List.mem_cons_self d D')))
  unfold canonApp6
  rw [htw, if_pos ⟨h1, h4⟩, List.drop_left, hdw]
  simp only [hdw2]
  rw [if_pos (sep6_contains_of_mem hsc),
    if_pos ⟨List.cons_ne_nil d D', List.all_eq_true.mpr fun x hx => hDig x hx⟩]

/-- Evaluation of the app6 canonicalizer on a token in bare-whitespace
separator form: letters, whitespace, digits. -/
theorem canonApp6_space_eval (L D w : Str)
    (hL : ∀ x ∈ L, x.isAlpha = true) (h1 : 1 ≤ L.length) (h4 : L.length ≤ 4)
    (hD : D ≠ []) (hDig : ∀ x ∈ D, x.isDigit = true)
    (hw : w ≠ []) (hws : ∀ x ∈ w, x.isWhitespace = true) :
    canonApp6 (L ++ w ++ D) = some (upperStr L ++ '-' :: D) := by
  obtain ⟨d, D', hDe⟩ : ∃ d D', D = d :: D' := by
    cases D with
    | nil => exact absurd rfl hD
    | cons d D' => exact ⟨d, D', rfl⟩
  subst hDe
  obtain ⟨a, w', hwe⟩ : ∃ a w', w = a :: w' := by
    cases w with
    | nil => exact absurd rfl hw
    | cons a w' => exact ⟨a, w', rfl⟩
  subst hwe
  rw [List.append_assoc]
  have htw : (L ++ (a :: w' ++ d :: D')).takeWhile Char.isAlpha = L := by
    apply takeWhile_append_eq _ _ hL
    intro y t he
    injection he with he1 _
    subst he1
    exact char_not_isAlpha_of_isWhitespace (hws a (List.mem_cons_self a w'))
  have hdw : (a :: w' ++ d :: D').dropWhile Char.isWhitespace = d :: D' :=
    dropWhile_append_eq (a :: w') d D' hws
      (char_not_isWhitespace_of_isDigit (hDig d (List.mem_cons_self d D')))
  have hta : (a :: w' ++ d :: D').takeWhile Char.isWhitespace ≠ [] := by
    simp only [List.cons_append, List.takeWhile_cons,
      hws a (List.mem_cons_self a w'), if_true]
    exact List.cons_ne_nil _ _
  unfold canonApp6
  rw [htw, if_pos ⟨h1, h4⟩, List.drop_left, hdw]
  dsimp only
  rw [if_neg (by
      rw [char_sep6_not_contains_digit (hDig d (List.mem_cons_self d D'))]
      simp),
    if_pos ⟨hta, List.all_eq_true.mpr fun x hx => hDig x hx⟩]

/-- Inversion: every successful output of the app6 canonicalizer is an
uppercased 1-4 letter run, a single hyphen, and a non-empty digit run. -/
theorem canonApp6_shape {s c : Str} (h : canonApp6 s = some c) :
    ∃ L D : Str, c = upperStr L ++ '-' :: D ∧ (∀ x ∈ L, x.isAlpha = true) ∧
      1 ≤ L.length ∧ L.length ≤ 4 ∧ D ≠ [] ∧ ∀ x ∈ D, x.isDigit = true := by
  unfold canonApp6 at h
  split at h
  · rename_i hb
    split at h
    · exact absurd h (by simp)
    · rename_i c0 rest2 heq
      split at h
      · split at h
        · rename_i hcond
          injection h with h
          refine ⟨s.takeWhile Char.isAlpha, rest2.dropWhile Char.isWhitespace,
            h.symm, fun x hx => List.mem_takeWhile_imp hx, hb.1, hb.2,
            hcond.1, fun x hx => ?_⟩
          exact List.all_eq_true.mp hcond.2 x hx
        · exact absurd h (by simp)
      · split at h
        · rename_i hcond
          injection h with h
          refine ⟨s.takeWhile Char.isAlpha, c0 :: rest2,
            h.symm, fun x hx => List.mem_takeWhile_imp hx, hb.1, hb.2,
            List.cons_ne_nil c0 rest2, fun x hx => ?_⟩
          exact List.all_eq_true.mp hcond.2 x hx
        · exact absurd h (by simp)
  · exact absurd h (by simp)

/-- C3: the app6 canonicalizer is separator- and case-insensitive — every
token built from letters, a tolerated separator (a separator character
with optional surrounding whitespace, or bare whitespace), and digits
canonicalizes to the uppercase single-hyphen form — and it is idempotent:
canonicalizing an already-canonical output returns it unchanged.  In
particular canon "ac 1" = canon "AC-1" = canon "AC_1" = "AC-1". -/
theorem canon_idempotent_insensitive :
    canonApp6 (str "ac 1") = some (str "AC-1") ∧
    canonApp6 (str "AC-1") = some (str "AC-1") ∧
    canonApp6 (str "AC_1") = some (str "AC-1") ∧
    (∀ s c : Str, canonApp6 s = some c → canonApp6 c = some c) ∧
    (∀ (L D : Str) (sc : Char) (w1 w2 : Str),
      (∀ x ∈ L, x.isAlpha = true) → 1 ≤ L.length → L.length ≤ 4 →
      D ≠ [] → (∀ x ∈ D, x.isDigit = true) →
      sc ∈ sepChars6 →
      (∀ x ∈ w1, x.isWhitespace = true) → (∀ x ∈ w2, x.isWhitespace = true) →
      canonApp6 (L ++ w1 ++ sc :: (w2 ++ D)) = some (upperStr L ++ '-' :: D)) ∧
    (∀ (L D w : Str),
      (∀ x ∈ L, x.isAlpha = true) → 1 ≤ L.length → L.length ≤ 4 →
      D ≠ [] → (∀ x ∈ D, x.isDigit = true) →
      w ≠ [] → (∀ x ∈ w, x.isWhitespace = true) →
      canonApp6 (L ++ w ++ D) = some (upperStr L ++ '-' :: D)) := by
  refine ⟨by decide, by decide, by decide, ?_, ?_, ?_⟩
  · intro s c h
    obtain ⟨L, D, hc, hL, h1, h4, hD, hDig⟩ := canonApp6_shape h
    subst hc
    have := canonApp6_sep_eval (upperStr L) D '-' [] []
      (by
        intro x hx
        rcases List.mem_map.mp hx with ⟨y, hy, hxy⟩
        subst hxy
        exact char_isAlpha_toUpper (hL y hy))
      (by simpa [upperStr] using h1)
      (by simpa [upperStr] using h4)
      hD hDig (by simp [sepChars6]) (by simp) (by simp)
    simpa [upperStr_idem] using this
  · intro L D sc w1 w2 hL h1 h4 hD hDig hsc hw1 hw2
    exact canonApp6_sep_eval L D sc w1 w2 hL h1 h4 hD hDig hsc hw1 hw2
  · intro L D w hL h1 h4 hD hDig hw hws
    exact canonApp6_space_eval L D w hL h1 h4 hD hDig hw hws

/-- Witness for C3: idempotence applied to the output of canonicalizing
"ac 1", and the two general clauses applied at "ac - 1" and "AC  1". -/
theorem canon_idempotent_insensitive_witness :
    canonApp6 (str "AC-1") = some (str "AC-1") ∧
    canonApp6 (str "ac - 1") = some (upperStr (str "ac") ++ '-' :: str "1") ∧
    canonApp6 (str "AC  1") = some (upperStr (str "AC") ++ '-' :: str "1") :=
  ⟨canon_idempotent_insensitive.2.2.2.1 (str "ac 1") (str "AC-1") (by decide),
   canon_idempotent_insensitive.2.2.2.2.1 (str "ac") (str "1") '-' [' '] [' ']
     (by decide) (by decide) (by decide) (by decide) (by decide) (by decide)
     (by decide) (by decide),
   canon_idempotent_insensitive.2.2.2.2.2 (str "AC") (str "1") [' ', ' ']
     (by decide) (by decide) (by decide) (by decide) (by decide) (by decide)
     (by decide)⟩

end PdfDetection
